import Mathlib

/-!
# ABI registry, canonical signatures and call packing (`abi/abi.go`)

A shallow embedding of `abi/abi.go`.

* Go strings are embedded as Lean `String`s (valid UTF-8 text); `[]byte(s)` is the UTF-8
  encoding of `s`.  The separators used by the source, `(`, `)` and `,`, are single ASCII bytes,
  so searching for them bytewise or characterwise is the same thing.
* A Go call either returns or panics: `Go α`.
* A `[]byte` result is a `Slice`: `none` is the nil slice.  An `error` result is an `Error`:
  `none` is nil, `some s` is an error whose text is `s` (all errors of the file are built by
  `fmt.Errorf`, so the text is all there is to them).
* `map[string]Method` is an optional association list read from the front: `none` is the nil
  map of the zero `ABI` value, `some l` a map created by `make`.
* The type `Type` with `NewType`, `Type.String` and `Type.pack` lives in another file of the
  package, and `crypto.Sha3` in a library: both are parameters (`TypeCapability`, `Sha3`).
* A JSON text is embedded as the `Document` the decoder of `encoding/json` sees: an error for a
  text of the wrong shape, or the method descriptors with, for each element of `inputs`, the
  outcome of decoding it into the struct `extarg`.  The decoder works in document order and
  gives up at the first error that `Argument.UnmarshalJSON` returns.
-/

namespace Abi

/-- One octet of a byte slice. -/
abbrev Byte := Nat

/-- A Go call returns a value or panics. -/
inductive Go (α : Type) where
  | ret (a : α)
  | panic (msg : String)
  deriving Repr, DecidableEq

/-- A `[]byte` value: `none` is the nil slice, `some l` a non-nil slice with contents `l`. -/
abbrev Slice := Option (List Byte)

/-- An `error` value: `none` is nil, `some s` an error with text `s`. -/
abbrev Error := Option String

/-- The conversion `[]byte(s)`: the UTF-8 encoding of `s`. -/
def stringBytes (s : String) : List Byte :=
  s.toUTF8.data.toList.map UInt8.toNat

/-- The builtin `append(s, elems...)` on byte slices: appending nothing to nil gives nil. -/
def append (s : Slice) (elems : List Byte) : Slice :=
  match s, elems with
  | none, [] => none
  | none, e :: es => some (e :: es)
  | some l, es => some (l ++ es)

/-- `strings.Contains(s, sep)` for a one-byte ASCII `sep`. -/
def Contains (s : String) (sep : Char) : Bool :=
  s.data.contains sep

/-- `strings.Join(a, sep)`. -/
def Join (a : List String) (sep : String) : String :=
  sep.intercalate a

/-- `strings.SplitN(s, sep, n)` for a one-byte ASCII `sep` and `n ≥ 0`, on the characters of `s`:
no substrings for `n = 0`, otherwise at most `n` substrings, the last one the unsplit
remainder. -/
def SplitN.go (sep : Char) : Nat → List Char → List String
  | 0, _ => []
  | 1, s => [String.mk s]
  | n + 2, s =>
    match s.span (fun c => c != sep) with
    | (pre, []) => [String.mk pre]
    | (pre, _ :: post) => String.mk pre :: SplitN.go sep (n + 1) post

/-- `strings.SplitN(s, sep, n)` for a one-byte ASCII `sep` and `n ≥ 0`. -/
def SplitN (s : String) (sep : Char) (n : Nat) : List String :=
  SplitN.go sep n s.data

/-- The `Type` of the package with the three operations `abi.go` uses, and its zero value:
`NewType(t)`, `Type.String()` and `Type.pack(v)`; `V` is the type of the values handed to
`pack` (`interface{}` in the source). -/
structure TypeCapability (Ty V : Type) where
  NewType : String → Except String Ty
  TypeString : Ty → String
  pack : Ty → V → Except String (List Byte)
  zero : Ty

/-- Argument holds the name of the argument and the corresponding type. -/
structure Argument (Ty : Type) where
  Name : String
  Typ : Ty
  deriving Repr, DecidableEq

/-- Callable method: `Name`, `Const`, the required `Input` parameters, and `Return`. -/
structure Method (Ty : Type) where
  Name : String
  Const : Bool
  Input : List (Argument Ty)
  Return : Ty
  deriving Repr, DecidableEq

/-- The zero value `Method{}`. -/
def Method.zero {Ty V : Type} (cap : TypeCapability Ty V) : Method Ty :=
  { Name := "", Const := false, Input := [], Return := cap.zero }

/-- `Method.String`: the method's string signature. -/
def Method.String {Ty V : Type} (cap : TypeCapability Ty V) (m : Method Ty) : String :=
  if Contains m.Name '(' && Contains m.Name ')' then
    m.Name
  else
    let out := "" ++ m.Name
    let types := m.Input.map (fun input => cap.TypeString input.Typ)
    out ++ ("(" ++ Join types "," ++ ")")

/-- `Method.Id`: `crypto.Sha3([]byte(m.String()))[:4]`.  Slicing panics when fewer than 4
bytes are there to slice. -/
def Method.Id {Ty V : Type} (cap : TypeCapability Ty V) (Sha3 : List Byte → List Byte)
    (m : Method Ty) : Go (List Byte) :=
  let h := Sha3 (stringBytes (m.String cap))
  if 4 ≤ h.length then .ret (h.take 4) else .panic "slice bounds out of range"

/-- The ABI holds the invokable methods; `Methods = none` is the nil map. -/
structure ABI (Ty : Type) where
  Methods : Option (List (String × Method Ty))
  deriving Repr, DecidableEq

/-- `NullABI = ABI{}`. -/
def NullABI {Ty : Type} : ABI Ty :=
  { Methods := none }

/-- The two-valued map read `v, ok := m[k]`: `none` when `ok` is false. -/
def mapLookup {β : Type} (m : Option (List (String × β))) (k : String) : Option β :=
  match m with
  | none => none
  | some l => l.lookup k

/-- The one-valued map read `m[k]`: the zero value when the key is absent. -/
def mapIndex {β : Type} (zero : β) (m : Option (List (String × β))) (k : String) : β :=
  (mapLookup m k).getD zero

/-- The map write `m[k] = v` on a map created by `make`. -/
def mapAssign {β : Type} (l : List (String × β)) (k : String) (v : β) : List (String × β) :=
  (k, v) :: l.filter (fun p => p.1 != k)

/-- The loop of `ABI.pack`: `i` is the index of the next value, `ret` the bytes so far. -/
def ABI.pack.loop {Ty V : Type} (cap : TypeCapability Ty V) (name : String) (method : Method Ty) :
    Nat → List V → Slice → Go (Slice × Error)
  | _, [], ret => .ret (ret, none)
  | i, a :: rest, ret =>
    match method.Input[i]? with
    | none => .panic "index out of range"
    | some input =>
      match cap.pack input.Typ a with
      | .error err => .ret (none, some ("\x60" ++ name ++ "\x60 " ++ err))
      | .ok packed => ABI.pack.loop cap name method (i + 1) rest (append ret packed)

/-- `ABI.pack`: packs the values one after the other against the inputs of `abi.Methods[name]`. -/
def ABI.pack {Ty V : Type} (cap : TypeCapability Ty V) (abi : ABI Ty) (name : String)
    (args : List V) : Go (Slice × Error) :=
  let method := mapIndex (Method.zero cap) abi.Methods name
  ABI.pack.loop cap name method 0 args none

/-- `ABI.Pack`: method id followed by the packed arguments. -/
def ABI.Pack {Ty V : Type} (cap : TypeCapability Ty V) (Sha3 : List Byte → List Byte)
    (abi : ABI Ty) (name : String) (args : List V) : Go (Slice × Error) :=
  match mapLookup abi.Methods name with
  | none => .ret (none, some ("method \x27" ++ name ++ "\x27 not found"))
  | some method =>
    if args.length != method.Input.length then
      .ret (none, some ("argument count mismatch: " ++ toString args.length ++ " for "
        ++ toString method.Input.length))
    else
      match ABI.pack cap abi name args with
      | .panic msg => .panic msg
      | .ret (_, some err) => .ret (none, some err)
      | .ret (arguments, none) =>
        match (mapIndex (Method.zero cap) abi.Methods name).Id cap Sha3 with
        | .panic msg => .panic msg
        | .ret packed => .ret (append (some packed) (arguments.getD []), none)

/-- The loop of `ABI.UnmarshalJSON` over the decoded methods; `spl[0]` panics on an empty
`spl`. -/
def ABI.UnmarshalJSON.loop {Ty : Type} :
    List (Method Ty) → List (String × Method Ty) → Go (List (String × Method Ty))
  | [], methods => .ret methods
  | method :: rest, methods =>
    match SplitN method.Name '(' 2 with
    | [] => .panic "index out of range"
    | key :: _ => ABI.UnmarshalJSON.loop rest (mapAssign methods key method)

/-- `ABI.UnmarshalJSON`: `decoded` is the outcome of `json.Unmarshal(data, &methods)`; the
result is the receiver after the call, and the error. -/
def ABI.UnmarshalJSON {Ty : Type} (decoded : Except String (List (Method Ty))) (abi : ABI Ty) :
    Go (ABI Ty × Error) :=
  match decoded with
  | .error err => .ret (abi, some err)
  | .ok methods =>
    match ABI.UnmarshalJSON.loop methods [] with
    | .panic msg => .panic msg
    | .ret l => .ret ({ Methods := some l }, none)

/-- The local struct `extarg` of `Argument.UnmarshalJSON`: the name and the type string of an
argument descriptor (`Typ` is its field `Type`). -/
structure ExtArg where
  Name : String
  Typ : String
  deriving Repr, DecidableEq

/-- `Argument.UnmarshalJSON`: `decoded` is the outcome of `json.Unmarshal(data, &extarg)`.
The result `.ok a` is the receiver after a return with a nil error, `.error e` is a return
with the error `e` (the receiver is then dropped by the decoder together with the whole
document). -/
def Argument.UnmarshalJSON {Ty V : Type} (cap : TypeCapability Ty V)
    (decoded : Except String ExtArg) (a : Argument Ty) : Except String (Argument Ty) :=
  match decoded with
  | .error err => .error ("argument json err: " ++ err)
  | .ok extarg =>
    match cap.NewType extarg.Typ with
    | .error err => .error err
    | .ok t =>
      let a1 := { a with Typ := t }
      .ok { a1 with Name := extarg.Name }

/-- A method descriptor of a document: its name, its constant flag, and for each element of
`inputs` the outcome of `json.Unmarshal(data, &extarg)` on it (`.error` for an element that
is not shaped as a descriptor). -/
structure MethodDescriptor where
  Name : String
  Const : Bool
  inputs : List (Except String ExtArg)

/-- A document as the decoder sees it: `.error e` for a text that is not JSON or is not
shaped as a sequence of method descriptors, `.ok ds` for a sequence of descriptors. -/
abbrev Document := Except String (List MethodDescriptor)

/-- The decoding of the `inputs` of one method by `encoding/json`: `Argument.UnmarshalJSON` is
called on a fresh `Argument` for each element, in order, and the first error ends the
decoding. -/
def decodeInputs {Ty V : Type} (cap : TypeCapability Ty V) :
    List (Except String ExtArg) → Except String (List (Argument Ty))
  | [] => .ok []
  | d :: ds =>
    match Argument.UnmarshalJSON cap d { Name := "", Typ := cap.zero } with
    | .error err => .error err
    | .ok a =>
      match decodeInputs cap ds with
      | .error err => .error err
      | .ok rest => .ok (a :: rest)

/-- The decoding of one method descriptor into a `Method`: `Return` has no key in the
document and keeps its zero value. -/
def decodeMethod {Ty V : Type} (cap : TypeCapability Ty V) (d : MethodDescriptor) :
    Except String (Method Ty) :=
  match decodeInputs cap d.inputs with
  | .error err => .error err
  | .ok inputs => .ok { Name := d.Name, Const := d.Const, Input := inputs, Return := cap.zero }

/-- The decoding of the method descriptors of a document, in order; the first error ends
the decoding. -/
def decodeMethods {Ty V : Type} (cap : TypeCapability Ty V) :
    List MethodDescriptor → Except String (List (Method Ty))
  | [] => .ok []
  | d :: ds =>
    match decodeMethod cap d with
    | .error err => .error err
    | .ok m =>
      match decodeMethods cap ds with
      | .error err => .error err
      | .ok rest => .ok (m :: rest)

/-- The call `json.Unmarshal(data, &methods)` of `ABI.UnmarshalJSON` on a document. -/
def jsonUnmarshalMethods {Ty V : Type} (cap : TypeCapability Ty V) (doc : Document) :
    Except String (List (Method Ty)) :=
  match doc with
  | .error err => .error err
  | .ok ds => decodeMethods cap ds

/-- `JSON`: `dec.Decode(&abi)` on a fresh `ABI` hands the document to `ABI.UnmarshalJSON`; on
an error the result is `ABI{}` and the error. -/
def JSON {Ty V : Type} (cap : TypeCapability Ty V) (doc : Document) : Go (ABI Ty × Error) :=
  let abi : ABI Ty := { Methods := none }
  match ABI.UnmarshalJSON (jsonUnmarshalMethods cap doc) abi with
  | .panic msg => .panic msg
  | .ret (_, some err) => .ret ({ Methods := none }, some err)
  | .ret (abi2, none) => .ret (abi2, none)

/-! ## Notions of the specification -/

/-- The bytes of a successful `Type.pack` result (nothing for a failed one). -/
def okBytes (r : Except String (List Byte)) : List Byte :=
  match r with
  | .ok b => b
  | .error _ => []

/-- The per-argument packed blocks in positional order: block `i` is `Type.pack` of value `i`
against the type of input `i`. -/
def packedBlocks {Ty V : Type} (cap : TypeCapability Ty V) (inputs : List (Argument Ty))
    (args : List V) : List (List Byte) :=
  List.zipWith (fun input a => okBytes (cap.pack input.Typ a)) inputs args

/-- The base name of a raw method name as the specification words it: the part before the
first `(`, the whole name when it has no `(`. -/
def baseName (raw : String) : String :=
  String.mk (raw.data.takeWhile (fun c => c != '('))

/-- The text of the error `ABI.pack` builds from the method name and the error of
`Type.pack`, as the format string gives it: the name between backquotes, a blank, the
error. -/
def packErrorText (name err : String) : String :=
  "\x60" ++ name ++ "\x60 " ++ err

/-- The keys of the registry: none for the nil map. -/
def ABI.keys {Ty : Type} (abi : ABI Ty) : List String :=
  match abi.Methods with
  | none => []
  | some l => l.map Prod.fst

/-- An argument descriptor is rejected when it is not shaped as a descriptor or when
`NewType` rejects its type string. -/
def argRejected {Ty V : Type} (cap : TypeCapability Ty V) (d : Except String ExtArg) : Bool :=
  match d with
  | .error _ => true
  | .ok extarg =>
    match cap.NewType extarg.Typ with
    | .error _ => true
    | .ok _ => false

/-- A document is rejected when its shape is wrong or when some argument descriptor of some
method is rejected. -/
def documentRejected {Ty V : Type} (cap : TypeCapability Ty V) (doc : Document) : Bool :=
  match doc with
  | .error _ => true
  | .ok ds => ds.any (fun d => d.inputs.any (argRejected cap))

/-- The argument `a` is what the descriptor `d` says: `d` is well-shaped, carries the name of
`a`, and `NewType` turns its type string into the type of `a`. -/
def argDecoded {Ty V : Type} (cap : TypeCapability Ty V) (d : Except String ExtArg)
    (a : Argument Ty) : Prop :=
  ∃ t, d = .ok { Name := a.Name, Typ := t } ∧ cap.NewType t = .ok a.Typ

/-- The method `m` is what the descriptor `d` says: same name, same constant flag, and the
inputs of `m` are what the argument descriptors say, one for one and in order. -/
def methodDecoded {Ty V : Type} (cap : TypeCapability Ty V) (d : MethodDescriptor)
    (m : Method Ty) : Prop :=
  m.Name = d.Name ∧ m.Const = d.Const ∧ List.Forall₂ (argDecoded cap) d.inputs m.Input

/-- The canonical signature as the specification words it: the base name, `(`, the canonical
type strings of the inputs joined by `,`, and `)`. -/
def canonicalSignature {Ty V : Type} (cap : TypeCapability Ty V) (m : Method Ty) : String :=
  baseName m.Name ++ "(" ++ ",".intercalate (m.Input.map (fun a => cap.TypeString a.Typ)) ++ ")"

/-! ## A sample instance

A small concrete type capability and hash, used to evaluate the definitions on concrete calls.
They stand in for the `Type` of the package and for Keccak-256; the theorems below hold for
every capability and hash.  The range tests of `sampleCap` and the type strings it knows are
its own; `ptrCap` further down refuses only a value that is not an integer at all. -/

/-- Three sample types: two integer types and the zero `Type`. -/
inductive SampleType where
  | uint32
  | int256
  | invalid
  deriving Repr, DecidableEq

/-- The 32-byte big-endian block of a natural number (reduced modulo `2 ^ 256`). -/
def bigEndian32 (n : Nat) : List Byte :=
  (List.range 32).map (fun i => n / 256 ^ (31 - i) % 256)

/-- The sample capability on integer values: `"int"` is a synonym of `"int256"`; `uint32`
accepts `0 ≤ v < 2 ^ 32`, `int256` accepts `-2 ^ 255 ≤ v < 2 ^ 255` (two's complement). -/
def sampleCap : TypeCapability SampleType Int where
  NewType := fun t =>
    if t = "uint32" then .ok .uint32
    else if t = "int" ∨ t = "int256" then .ok .int256
    else .error ("unsupported arg type: " ++ t)
  TypeString := fun t =>
    match t with
    | .uint32 => "uint32"
    | .int256 => "int256"
    | .invalid => ""
  pack := fun t v =>
    match t with
    | .uint32 =>
      if 0 ≤ v ∧ v < ((2 ^ 32 : Nat) : Int) then .ok (bigEndian32 v.toNat)
      else .error "abi: bad input given"
    | .int256 =>
      if -((2 ^ 255 : Nat) : Int) ≤ v ∧ v < ((2 ^ 255 : Nat) : Int) then
        .ok (bigEndian32 (v % ((2 ^ 256 : Nat) : Int)).toNat)
      else .error "abi: bad input given"
    | .invalid => .error "abi: bad input given"
  zero := .invalid

/-- A stand-in hash with 32 bytes of output that depends on its input. -/
def sampleSha3 (d : List Byte) : List Byte :=
  (List.range 32).map (fun i => (d.sum + 7 * i) % 256)

/-- The method `foo(uint32 a, int b)`. -/
def fooMethod : Method SampleType :=
  { Name := "foo", Const := false,
    Input := [{ Name := "a", Typ := .uint32 }, { Name := "b", Typ := .int256 }],
    Return := .invalid }

/-- The registry with the single entry `foo`. -/
def fooABI : ABI SampleType :=
  { Methods := some [("foo", fooMethod)] }

/-- The method `bar(uint32 x, uint32 y, uint32 z)`: three inputs of one type. -/
def barMethod : Method SampleType :=
  { Name := "bar", Const := false,
    Input := [{ Name := "x", Typ := .uint32 }, { Name := "y", Typ := .uint32 },
      { Name := "z", Typ := .uint32 }],
    Return := .invalid }

/-- The registry with the single entry `bar`. -/
def barABI : ABI SampleType :=
  { Methods := some [("bar", barMethod)] }

/-- A method stored under the pre-formatted name `foo(uint256)`, with one `uint32` input. -/
def fooSigMethod : Method SampleType :=
  { Name := "foo(uint256)", Const := false, Input := [{ Name := "a", Typ := .uint32 }],
    Return := .invalid }

/-- A decoded document with the two entries `foo(uint256)` and `bar`. -/
def sampleDoc : List (Method SampleType) :=
  [fooSigMethod, barMethod]

/-- A second capability: the sample one, except that it rejects the value `7` with an error
of its own. -/
def strictCap : TypeCapability SampleType Int :=
  { sampleCap with
    pack := fun t v => if v = 7 then .error "abi: seven" else sampleCap.pack t v }

/-- A method stored under the pre-formatted name `bar(uint32)`. -/
def barSigMethod : Method SampleType :=
  { Name := "bar(uint32)", Const := true, Input := [{ Name := "x", Typ := .uint32 }],
    Return := .invalid }

/-- A decoded document with two entries that reduce to the base name `bar`, and `foo`
after them. -/
def shadowDoc : List (Method SampleType) :=
  [barSigMethod, barMethod, fooMethod]

/-- A method whose name was written `foo(int)` in the document: its one input has the
canonical type `int256`. -/
def fooIntMethod : Method SampleType :=
  { Name := "foo(int)", Const := false, Input := [{ Name := "b", Typ := .int256 }],
    Return := .invalid }

/-- The document of the specification, with the one method `foo` and the inputs `a` of type
`uint32` and `b` of type `int`. -/
def fooDocument : Document :=
  .ok [{ Name := "foo", Const := false,
         inputs := [.ok { Name := "a", Typ := "uint32" }, .ok { Name := "b", Typ := "int" }] }]

/-- A document whose second method has an argument of the unknown type `uint7`. -/
def badTypeDocument : Document :=
  .ok [{ Name := "foo", Const := false,
         inputs := [.ok { Name := "a", Typ := "uint32" }, .ok { Name := "b", Typ := "int" }] },
       { Name := "baz", Const := false,
         inputs := [.ok { Name := "x", Typ := "uint32" }, .ok { Name := "y", Typ := "uint7" }] }]

/-- A document whose one method is written `foo(int)`, with the input `b` of type `int`. -/
def fooIntDocument : Document :=
  .ok [{ Name := "foo(int)", Const := false, inputs := [.ok { Name := "b", Typ := "int" }] }]

/-- Go values of two kinds handed to `ABI.Pack`: an `int`, and a pointer to an `int` (`*int`,
here with the number it points to). -/
inductive SampleValue where
  | int (v : Int)
  | intPtr (v : Int)
  deriving Repr, DecidableEq

/-- A capability on these values that packs every `int`, negative ones too, as the 32-byte
two's complement block, and refuses a pointer to an `int` with a type-mismatch error. -/
def ptrCap : TypeCapability SampleType SampleValue where
  NewType := sampleCap.NewType
  TypeString := sampleCap.TypeString
  pack := fun t v =>
    match t, v with
    | .invalid, _ => .error "abi: bad input given"
    | _, .int n => .ok (bigEndian32 (n % ((2 ^ 256 : Nat) : Int)).toNat)
    | _, .intPtr _ => .error "type mismatch: *big.Int for *int"
  zero := .invalid

/-! ## Auxiliary lemmas -/

theorem append_nil_right (s : Slice) : append s [] = s := by
  cases s <;> simp [append]

theorem append_append (s : Slice) (a b : List Byte) :
    append (append s a) b = append s (a ++ b) := by
  cases s with
  | none => cases a <;> cases b <;> simp [append]
  | some l => simp [append]

/-- When every remaining value has an input and packs, the loop of `ABI.pack` returns the
bytes so far followed by the remaining blocks, and no error. -/
theorem pack_loop_ok {Ty V : Type} (cap : TypeCapability Ty V) (name : String)
    (method : Method Ty) :
    ∀ (rest : List V) (i : Nat) (ret : Slice),
      i + rest.length ≤ method.Input.length →
      (∀ j input a, method.Input[i + j]? = some input → rest[j]? = some a →
        ∃ b, cap.pack input.Typ a = .ok b) →
      ABI.pack.loop cap name method i rest ret
        = .ret (append ret (packedBlocks cap (method.Input.drop i) rest).flatten, none) := by
  intro rest
  induction rest with
  | nil =>
    intro i ret _ _
    simp [ABI.pack.loop, packedBlocks, append_nil_right]
  | cons a rest ih =>
    intro i ret hlen hall
    have hi : i < method.Input.length := by simp at hlen; omega
    have hget : method.Input[i]? = some method.Input[i] := List.getElem?_eq_getElem hi
    obtain ⟨b, hb⟩ := hall 0 method.Input[i] a (by simp) (by simp)
    have hrec := ih (i + 1) (append ret b) (by simp at hlen; omega) (by
      intro j input a2 h1 h2
      exact hall (j + 1) input a2 (by rw [← h1]; congr 1; omega) (by simp [h2]))
    rw [ABI.pack.loop, hget]
    simp only [hb]
    rw [hrec, append_append, List.drop_eq_getElem_cons hi]
    simp only [packedBlocks, List.zipWith_cons_cons, List.flatten_cons, hb, okBytes]

/-- When the value `k` places ahead is the first one that does not pack, the loop of
`ABI.pack` returns nil bytes and the error built from the error of that value. -/
theorem pack_loop_err {Ty V : Type} (cap : TypeCapability Ty V) (name : String)
    (method : Method Ty) :
    ∀ (k : Nat) (rest : List V) (i : Nat) (ret : Slice) (input : Argument Ty) (a : V)
      (e : String),
      method.Input[i + k]? = some input → rest[k]? = some a →
      cap.pack input.Typ a = .error e →
      (∀ j, j < k → ∀ input2 a2, method.Input[i + j]? = some input2 → rest[j]? = some a2 →
        ∃ b, cap.pack input2.Typ a2 = .ok b) →
      ABI.pack.loop cap name method i rest ret = .ret (none, some (packErrorText name e)) := by
  intro k
  induction k with
  | zero =>
    intro rest i ret input a e hin ha he _
    cases rest with
    | nil => simp at ha
    | cons a0 rest =>
      simp at ha
      subst ha
      simp at hin
      rw [ABI.pack.loop, hin]
      simp [he, packErrorText]
  | succ k ih =>
    intro rest i ret input a e hin ha he hmin
    cases rest with
    | nil => simp at ha
    | cons a0 rest =>
      simp at ha
      have hlt : i + (k + 1) < method.Input.length := by
        obtain ⟨h, _⟩ := List.getElem?_eq_some.mp hin
        exact h
      have hi : i < method.Input.length := by omega
      have hget : method.Input[i]? = some method.Input[i] := List.getElem?_eq_getElem hi
      obtain ⟨b, hb⟩ := hmin 0 (by omega) method.Input[i] a0 (by simp) (by simp)
      rw [ABI.pack.loop, hget]
      simp only [hb]
      exact ih rest (i + 1) (append ret b) input a e (by rw [← hin]; congr 1; omega) ha he (by
        intro j hj input2 a2 h1 h2
        exact hmin (j + 1) (by omega) input2 a2 (by rw [← h1]; congr 1; omega) (by simp [h2]))

theorem append_nil_getD (x : List Byte) : (append none x).getD [] = x := by
  cases x <;> simp [append]

/-- With a hash of at least 4 bytes `Method.Id` returns the leading 4 bytes of the hash of
the signature. -/
theorem id_of_hash {Ty V : Type} (cap : TypeCapability Ty V) (Sha3 : List Byte → List Byte)
    (m : Method Ty) (hhash : ∀ d, 4 ≤ (Sha3 d).length) :
    Method.Id cap Sha3 m = .ret ((Sha3 (stringBytes (Method.String cap m))).take 4) := by
  simp [Method.Id, hhash]

/-- For a registered name and a matching value count, `ABI.Pack` is the loop of `ABI.pack` on
the resolved method followed by the prefixing of the method id. -/
theorem Pack_of_key {Ty V : Type} (cap : TypeCapability Ty V) (Sha3 : List Byte → List Byte)
    (abi : ABI Ty) (name : String) (method : Method Ty) (args : List V)
    (hkey : mapLookup abi.Methods name = some method)
    (hlen : args.length = method.Input.length) :
    ABI.Pack cap Sha3 abi name args =
      match ABI.pack.loop cap name method 0 args none with
      | .panic msg => .panic msg
      | .ret (_, some err) => .ret (none, some err)
      | .ret (arguments, none) =>
        match Method.Id cap Sha3 method with
        | .panic msg => .panic msg
        | .ret packed => .ret (append (some packed) (arguments.getD []), none) := by
  simp [ABI.Pack, ABI.pack, mapIndex, hkey, hlen]

/-- A key has no entry in an association list exactly when it is not among its keys. -/
theorem lookup_eq_none_iff_not_key {β : Type} (l : List (String × β)) (k : String) :
    l.lookup k = none ↔ k ∉ l.map Prod.fst := by
  induction l with
  | nil => simp
  | cons p l ih =>
    obtain ⟨k0, v⟩ := p
    by_cases hk : k = k0
    · have hb : (k == k0) = true := by simp [hk]
      rw [List.lookup_cons, hb]
      simp [hk]
    · have hb : (k == k0) = false := by simp [hk]
      rw [List.lookup_cons, hb]
      simp only [List.map_cons, List.mem_cons, not_or]
      rw [ih]
      exact ⟨fun h => ⟨hk, h⟩, fun h => h.2⟩

/-- A name has no entry in the map exactly when it is not a key of the registry. -/
theorem mapLookup_eq_none_iff {Ty : Type} (abi : ABI Ty) (name : String) :
    mapLookup abi.Methods name = none ↔ name ∉ abi.keys := by
  cases h : abi.Methods with
  | none => simp [mapLookup, ABI.keys, h]
  | some l =>
    simp only [mapLookup, ABI.keys, h]
    exact lookup_eq_none_iff_not_key l name

/-- The sample hash has 32 bytes of output. -/
theorem sampleSha3_length (d : List Byte) : (sampleSha3 d).length = 32 := by
  simp [sampleSha3]

/-- For a registered name, a matching value count, values that all pack and a hash of at
least 4 bytes, `ABI.Pack` returns the leading 4 hash bytes followed by the blocks. -/
theorem Pack_of_all_ok {Ty V : Type} (cap : TypeCapability Ty V) (Sha3 : List Byte → List Byte)
    (abi : ABI Ty) (name : String) (method : Method Ty) (args : List V)
    (hkey : mapLookup abi.Methods name = some method)
    (hlen : args.length = method.Input.length)
    (hpack : ∀ (i : Nat) (input : Argument Ty) (a : V), method.Input[i]? = some input →
      args[i]? = some a → ∃ b, cap.pack input.Typ a = .ok b)
    (hhash : ∀ d, 4 ≤ (Sha3 d).length) :
    ABI.Pack cap Sha3 abi name args
      = .ret (some ((Sha3 (stringBytes (Method.String cap method))).take 4
          ++ (packedBlocks cap method.Input args).flatten), none) := by
  have hloop := pack_loop_ok cap name method args 0 none (by omega) (by
    intro j input a h1 h2
    exact hpack j input a (by simpa using h1) h2)
  rw [Pack_of_key cap Sha3 abi name method args hkey hlen, hloop, id_of_hash cap Sha3 method hhash]
  simp only [append_nil_getD, List.drop_zero]
  simp [append]

/-- The loop of `ABI.pack` over values that all have an input either stops with nil bytes and
an error, or every value packs. -/
theorem pack_loop_cases {Ty V : Type} (cap : TypeCapability Ty V) (name : String)
    (method : Method Ty) :
    ∀ (rest : List V) (i : Nat) (ret : Slice),
      i + rest.length ≤ method.Input.length →
      (∃ err, ABI.pack.loop cap name method i rest ret = .ret (none, some err)) ∨
      (∀ (j : Nat) (input : Argument Ty) (a : V), method.Input[i + j]? = some input →
        rest[j]? = some a → ∃ b, cap.pack input.Typ a = .ok b) := by
  intro rest
  induction rest with
  | nil =>
    intro i ret _
    right
    intro j input a _ h2
    simp at h2
  | cons a0 rest ih =>
    intro i ret hlen
    have hi : i < method.Input.length := by simp at hlen; omega
    have hget : method.Input[i]? = some method.Input[i] := List.getElem?_eq_getElem hi
    cases hp : cap.pack method.Input[i].Typ a0 with
    | error e =>
      left
      refine ⟨packErrorText name e, ?_⟩
      rw [ABI.pack.loop, hget]
      simp [hp, packErrorText]
    | ok b =>
      rcases ih (i + 1) (append ret b) (by simp at hlen; omega) with ⟨err, herr⟩ | hall
      · left
        refine ⟨err, ?_⟩
        rw [ABI.pack.loop, hget]
        simp only [hp]
        exact herr
      · right
        intro j input a h1 h2
        cases j with
        | zero =>
          simp only [Nat.add_zero, hget, Option.some.injEq] at h1
          simp only [List.getElem?_cons_zero, Option.some.injEq] at h2
          subst h1 h2
          exact ⟨b, hp⟩
        | succ j =>
          exact hall j input a (by rw [← h1]; congr 1; omega) (by simpa using h2)

/-! ## The claims -/

/-- C1: for a name that is a key, a value count equal to the input count of the resolved
method and values that all pack against the type at their position, `ABI.Pack` succeeds and
returns `Id(method)` followed by the concatenation of the per-argument blocks in positional
order, block `i` being `Type.pack` of value `i` against `inputs[i].Type`; the selector is the
first 4 bytes of the payload. -/
theorem Pack_ok {Ty V : Type} (cap : TypeCapability Ty V) (Sha3 : List Byte → List Byte)
    (abi : ABI Ty) (name : String) (method : Method Ty) (args : List V)
    (hkey : mapLookup abi.Methods name = some method)
    (hlen : args.length = method.Input.length)
    (hpack : ∀ (i : Nat) (input : Argument Ty) (a : V), method.Input[i]? = some input →
        args[i]? = some a →
      ∃ b, cap.pack input.Typ a = .ok b)
    (hhash : ∀ d, 4 ≤ (Sha3 d).length) :
    ∃ id payload,
      Method.Id cap Sha3 method = .ret id ∧ id.length = 4 ∧
      ABI.Pack cap Sha3 abi name args = .ret (some payload, none) ∧
      payload = id ++ (packedBlocks cap method.Input args).flatten ∧
      payload.take 4 = id ∧
      (packedBlocks cap method.Input args).length = args.length ∧
      ∀ (i : Nat) (input : Argument Ty) (a : V), method.Input[i]? = some input →
        args[i]? = some a →
        cap.pack input.Typ a = .ok ((packedBlocks cap method.Input args).getD i []) := by
  have hid := id_of_hash cap Sha3 method hhash
  have hl4 : ((Sha3 (stringBytes (Method.String cap method))).take 4).length = 4 := by
    have := hhash (stringBytes (Method.String cap method))
    simp only [List.length_take]
    omega
  refine ⟨_, _, hid, hl4, Pack_of_all_ok cap Sha3 abi name method args hkey hlen hpack hhash,
    rfl, ?_, ?_, ?_⟩
  · rw [List.take_append_of_le_length (by omega)]
    exact List.take_of_length_le (by omega)
  · simp [packedBlocks, hlen]
  · intro i input a h1 h2
    obtain ⟨b, hb⟩ := hpack i input a h1 h2
    simp [packedBlocks, List.getD, List.getElem?_zipWith, h1, h2, hb, okBytes]

/-- The call `Pack("foo", 5, -1)` of the specification: every hypothesis of C1 holds there. -/
theorem Pack_ok_witness :
    ∃ id payload,
      Method.Id sampleCap sampleSha3 fooMethod = .ret id ∧ id.length = 4 ∧
      ABI.Pack sampleCap sampleSha3 fooABI "foo" [5, -1] = .ret (some payload, none) ∧
      payload = id ++ (packedBlocks sampleCap fooMethod.Input [5, -1]).flatten ∧
      payload.take 4 = id ∧
      (packedBlocks sampleCap fooMethod.Input [5, -1]).length = [(5 : Int), -1].length ∧
      ∀ (i : Nat) (input : Argument SampleType) (a : Int), fooMethod.Input[i]? = some input →
        [(5 : Int), -1][i]? = some a →
        sampleCap.pack input.Typ a
          = .ok ((packedBlocks sampleCap fooMethod.Input [5, -1]).getD i []) :=
  Pack_ok sampleCap sampleSha3 fooABI "foo" fooMethod [5, -1] (by decide) (by decide)
    (by
      intro i input a h1 h2
      rcases i with _ | _ | i
      · simp [fooMethod] at h1 h2
        subst h1 h2
        exact ⟨_, rfl⟩
      · simp [fooMethod] at h1 h2
        subst h1 h2
        exact ⟨_, rfl⟩
      · simp [fooMethod] at h1)
    (fun d => by rw [sampleSha3_length]; decide)

/-- C2: for a method whose name does not contain both `(` and `)`, `Method.String` is the
name, `(`, the canonical type strings of the inputs in order joined by `,`, and `)`; with
no inputs it is the name followed by `()`. -/
theorem string_canonical {Ty V : Type} (cap : TypeCapability Ty V) (m : Method Ty)
    (h : ¬ ('(' ∈ m.Name.data ∧ ')' ∈ m.Name.data)) :
    Method.String cap m
      = m.Name ++ "(" ++ ",".intercalate (m.Input.map (fun a => cap.TypeString a.Typ)) ++ ")" ∧
    (m.Input = [] → Method.String cap m = m.Name ++ "()") := by
  have hc : (Contains m.Name '(' && Contains m.Name ')') = false := by
    rw [Bool.eq_false_iff]
    intro hh
    exact h (by simpa [Contains] using hh)
  have hs : Method.String cap m
      = m.Name ++ "(" ++ ",".intercalate (m.Input.map (fun a => cap.TypeString a.Typ)) ++ ")" := by
    simp [Method.String, hc, Join, String.append_assoc]
  refine ⟨hs, fun hnil => ?_⟩
  rw [hs, hnil]
  simp [String.intercalate, String.append_assoc]

/-- The method `foo` with inputs of canonical types `uint32` and `int256` has the signature
`foo(uint32,int256)`. -/
theorem string_canonical_witness :
    Method.String sampleCap fooMethod = "foo(uint32,int256)" := by
  rw [(string_canonical sampleCap fooMethod (by decide)).1]
  decide

/-- C3: with the 32-byte platform hash, `Method.Id` returns exactly 4 bytes, the leading 4
bytes of the hash of the bytes of `m.String()`; two methods with equal signatures have equal
ids, whatever their other fields. -/
theorem id_leading_four {Ty V : Type} (cap : TypeCapability Ty V)
    (Sha3 : List Byte → List Byte) (m : Method Ty) (hhash : ∀ d, (Sha3 d).length = 32) :
    (∃ id, Method.Id cap Sha3 m = .ret id ∧ id.length = 4 ∧
      id = (Sha3 (stringBytes (Method.String cap m))).take 4) ∧
    ∀ m2 : Method Ty, Method.String cap m2 = Method.String cap m →
      Method.Id cap Sha3 m2 = Method.Id cap Sha3 m := by
  constructor
  · refine ⟨_, id_of_hash cap Sha3 m (fun d => by rw [hhash d]; decide), ?_, rfl⟩
    simp [List.length_take, hhash]
  · intro m2 h
    simp only [Method.Id, h]

/-- The id of `foo(uint32,int256)` under the sample hash, and a method with another `Const`
flag, other argument names and another `Return` that has the same id. -/
theorem id_leading_four_witness :
    Method.Id sampleCap sampleSha3 fooMethod = .ret [206, 213, 220, 227] ∧
    Method.Id sampleCap sampleSha3
        { Name := "foo", Const := true,
          Input := [{ Name := "x", Typ := .uint32 }, { Name := "y", Typ := .int256 }],
          Return := .uint32 }
      = Method.Id sampleCap sampleSha3 fooMethod := by
  have h := id_leading_four sampleCap sampleSha3 fooMethod sampleSha3_length
  exact ⟨by decide, h.2 _ (by decide)⟩

/-- C4: for a method whose name contains both `(` and `)`, `Method.String` returns the name
unchanged, independently of the inputs: a method with the same name has the same signature
and the same id, whatever its inputs (and other fields). -/
theorem string_pass_through {Ty V : Type} (cap : TypeCapability Ty V) (m : Method Ty)
    (h1 : '(' ∈ m.Name.data) (h2 : ')' ∈ m.Name.data) :
    Method.String cap m = m.Name ∧
    ∀ (Sha3 : List Byte → List Byte) (m2 : Method Ty), m2.Name = m.Name →
      Method.String cap m2 = Method.String cap m ∧
      Method.Id cap Sha3 m2 = Method.Id cap Sha3 m := by
  have hs : ∀ m2 : Method Ty, m2.Name = m.Name → Method.String cap m2 = m.Name := by
    intro m2 hn
    simp [Method.String, Contains, hn, h1, h2]
  refine ⟨hs m rfl, fun Sha3 m2 hn => ?_⟩
  have he : Method.String cap m2 = Method.String cap m := by rw [hs m2 hn, hs m rfl]
  exact ⟨he, by simp only [Method.Id, he]⟩

/-- The method stored under the pre-formatted name `foo(uint256)` has that name as its
signature, and the same id as a method of that name with no inputs at all. -/
theorem string_pass_through_witness :
    Method.String sampleCap fooSigMethod = "foo(uint256)" ∧
    Method.Id sampleCap sampleSha3
        { Name := "foo(uint256)", Const := true, Input := [], Return := .int256 }
      = Method.Id sampleCap sampleSha3 fooSigMethod :=
  have h := string_pass_through sampleCap fooSigMethod (by decide) (by decide)
  ⟨h.1, (h.2 sampleSha3 _ rfl).2⟩

/-- C5: for a name that is not a key of the registry, `ABI.Pack` returns (it does not panic)
nil bytes and the method-not-found error, whatever the values; so it does on `NullABI`, whose
map is nil, for every name. -/
theorem Pack_not_found {Ty V : Type} (cap : TypeCapability Ty V)
    (Sha3 : List Byte → List Byte) (abi : ABI Ty) (name : String) (args : List V)
    (hkey : name ∉ abi.keys) :
    ABI.Pack cap Sha3 abi name args
      = .ret (none, some ("method \x27" ++ name ++ "\x27 not found")) ∧
    ABI.Pack cap Sha3 NullABI name args
      = .ret (none, some ("method \x27" ++ name ++ "\x27 not found")) := by
  have h := (mapLookup_eq_none_iff abi name).mpr hkey
  constructor
  · simp [ABI.Pack, h]
  · simp [ABI.Pack, NullABI, mapLookup]

/-- The call `Pack("missing", 5, -1)` on the registry that only knows `foo`. -/
theorem Pack_not_found_witness :
    ABI.Pack sampleCap sampleSha3 fooABI "missing" [5, -1]
      = .ret (none, some "method \x27missing\x27 not found") :=
  (Pack_not_found sampleCap sampleSha3 fooABI "missing" [5, -1] (by decide)).1

/-- C6: for a name that is a key and a value count that differs from the input count of the
resolved method, `ABI.Pack` returns nil bytes and the argument-count-mismatch error (built
from the two counts), whether values are missing or in excess. -/
theorem Pack_count_mismatch {Ty V : Type} (cap : TypeCapability Ty V)
    (Sha3 : List Byte → List Byte) (abi : ABI Ty) (name : String) (method : Method Ty)
    (args : List V)
    (hkey : mapLookup abi.Methods name = some method)
    (hne : args.length ≠ method.Input.length) :
    ABI.Pack cap Sha3 abi name args
      = .ret (none, some ("argument count mismatch: " ++ toString args.length ++ " for "
          ++ toString method.Input.length)) := by
  simp [ABI.Pack, hkey, hne]

/-- The calls `Pack("foo", 5)` and `Pack("foo", 5, -1, 7)` on the method with two inputs: one
value short, one value in excess. -/
theorem Pack_count_mismatch_witness :
    ABI.Pack sampleCap sampleSha3 fooABI "foo" [5]
      = .ret (none, some "argument count mismatch: 1 for 2") ∧
    ABI.Pack sampleCap sampleSha3 fooABI "foo" [5, -1, 7]
      = .ret (none, some "argument count mismatch: 3 for 2") :=
  ⟨Pack_count_mismatch sampleCap sampleSha3 fooABI "foo" fooMethod [5] (by decide) (by decide),
    Pack_count_mismatch sampleCap sampleSha3 fooABI "foo" fooMethod [5, -1, 7] (by decide)
      (by decide)⟩

/-- C7: for a resolved method and a value list of matching length in which the value at
index `i` fails to pack and every value before it packs, `ABI.Pack` fails with the error
built from the failure at `i`.  What comes after `i` plays no part: a value list of the same
length that agrees with it up to and including index `i`, packed by a capability that agrees
on the values up to and including index `i`, gives the same result, whatever the later values
are and whatever the capability would answer for them. -/
theorem Pack_first_failure {Ty V : Type} (cap cap2 : TypeCapability Ty V)
    (Sha3 : List Byte → List Byte) (abi : ABI Ty) (name : String) (method : Method Ty)
    (args args2 : List V) (i : Nat) (input : Argument Ty) (a : V) (e : String)
    (hkey : mapLookup abi.Methods name = some method)
    (hlen : args.length = method.Input.length)
    (hlen2 : args2.length = method.Input.length)
    (hin : method.Input[i]? = some input) (ha : args[i]? = some a)
    (hfail : cap.pack input.Typ a = .error e)
    (hmin : ∀ j, j < i → ∀ (input2 : Argument Ty) (a2 : V), method.Input[j]? = some input2 →
      args[j]? = some a2 → ∃ b, cap.pack input2.Typ a2 = .ok b)
    (hagree : args2.take (i + 1) = args.take (i + 1))
    (hcap : ∀ j, j ≤ i → ∀ (input2 : Argument Ty) (a2 : V), method.Input[j]? = some input2 →
      args[j]? = some a2 → cap2.pack input2.Typ a2 = cap.pack input2.Typ a2) :
    ABI.Pack cap Sha3 abi name args = .ret (none, some (packErrorText name e)) ∧
    ABI.Pack cap2 Sha3 abi name args2 = ABI.Pack cap Sha3 abi name args := by
  have hsame : ∀ j, j < i + 1 → args2[j]? = args[j]? := by
    intro j hj
    have h := congrArg (fun l => l[j]?) hagree
    simpa [List.getElem?_take, hj] using h
  have h1 : ABI.Pack cap Sha3 abi name args = .ret (none, some (packErrorText name e)) := by
    rw [Pack_of_key cap Sha3 abi name method args hkey hlen,
      pack_loop_err cap name method i args 0 none input a e (by simpa using hin) ha hfail
        (fun j hj input2 a2 h1 h2 => hmin j hj input2 a2 (by simpa using h1) h2)]
  have h2 : ABI.Pack cap2 Sha3 abi name args2 = .ret (none, some (packErrorText name e)) := by
    rw [Pack_of_key cap2 Sha3 abi name method args2 hkey hlen2,
      pack_loop_err cap2 name method i args2 0 none input a e (by simpa using hin)
        (by rw [hsame i (by omega)]; exact ha)
        (by rw [hcap i (by omega) input a hin ha]; exact hfail)
        (fun j hj input2 a2 h1 h2 => by
          have h3 : method.Input[j]? = some input2 := by simpa using h1
          have h4 : args[j]? = some a2 := by rw [← hsame j (by omega)]; exact h2
          rw [hcap j (by omega) input2 a2 h3 h4]
          exact hmin j hj input2 a2 h3 h4)]
  exact ⟨h1, by rw [h1, h2]⟩

/-- On `bar(uint32,uint32,uint32)` with the values `5, -1, 7` the value at index 1 is the first
failure.  With `-3` in place of `7` (a value that does not pack) and the capability that
answers `7` differently, the result is the same. -/
theorem Pack_first_failure_witness :
    ABI.Pack sampleCap sampleSha3 barABI "bar" [5, -1, 7]
      = .ret (none, some (packErrorText "bar" "abi: bad input given")) ∧
    ABI.Pack strictCap sampleSha3 barABI "bar" [5, -1, -3]
      = ABI.Pack sampleCap sampleSha3 barABI "bar" [5, -1, 7] :=
  Pack_first_failure sampleCap strictCap sampleSha3 barABI "bar" barMethod [5, -1, 7]
    [5, -1, -3] 1 { Name := "y", Typ := .uint32 } (-1) "abi: bad input given"
    (by decide) (by decide) (by decide) (by decide) (by decide) (by rfl)
    (by
      intro j hj input2 a2 h1 h2
      have hj0 : j = 0 := by omega
      subst hj0
      simp [barMethod] at h1 h2
      subst h1 h2
      exact ⟨_, rfl⟩)
    (by decide)
    (by
      intro j hj input2 a2 h1 h2
      rcases j with _ | _ | j
      · simp [barMethod] at h1 h2
        subst h1 h2
        rfl
      · simp [barMethod] at h1 h2
        subst h1 h2
        rfl
      · omega)

/-- C8 as stated fails: on `bar(uint32,uint32,uint32)` no reading of the error text gives back
the index of the failing value.  With `p` a pointer to an `int`, which `Type.pack` refuses
(the integers `0` and `-1` pack), the calls `bar(p, 0, 0)` and `bar(0, p, 0)` fail at index 0
and at index 1, and return the same error: the name `bar` and the text of `Type.pack`. -/
theorem Pack_error_index_counterexample :
    ABI.Pack ptrCap sampleSha3 barABI "bar" [.intPtr 5, .int 0, .int 0]
      = .ret (none, some "\x60bar\x60 type mismatch: *big.Int for *int") ∧
    ABI.Pack ptrCap sampleSha3 barABI "bar" [.int 0, .intPtr 5, .int 0]
      = .ret (none, some "\x60bar\x60 type mismatch: *big.Int for *int") ∧
    ptrCap.pack .uint32 (.int 0) = .ok (bigEndian32 0) ∧
    ptrCap.pack .uint32 (.int (-1)) = .ok (bigEndian32 (2 ^ 256 - 1)) ∧
    ¬ ∃ indexOf : String → Nat,
      ∀ (args : List SampleValue) (i : Nat) (input : Argument SampleType) (a : SampleValue)
        (e err : String),
        args.length = barMethod.Input.length →
        barMethod.Input[i]? = some input → args[i]? = some a →
        ptrCap.pack input.Typ a = .error e →
        (∀ j, j < i → ∀ (input2 : Argument SampleType) (a2 : SampleValue),
          barMethod.Input[j]? = some input2 → args[j]? = some a2 →
          ∃ b, ptrCap.pack input2.Typ a2 = .ok b) →
        ABI.Pack ptrCap sampleSha3 barABI "bar" args = .ret (none, some err) →
        indexOf err = i := by
  refine ⟨by decide, by decide, by rfl, by rfl, ?_⟩
  rintro ⟨indexOf, h⟩
  have h0 := h [.intPtr 5, .int 0, .int 0] 0 { Name := "x", Typ := .uint32 } (.intPtr 5)
    "type mismatch: *big.Int for *int" "\x60bar\x60 type mismatch: *big.Int for *int"
    (by decide) (by decide) (by decide) (by rfl)
    (fun j hj => absurd hj (by omega)) (by decide)
  have h1 := h [.int 0, .intPtr 5, .int 0] 1 { Name := "y", Typ := .uint32 } (.intPtr 5)
    "type mismatch: *big.Int for *int" "\x60bar\x60 type mismatch: *big.Int for *int"
    (by decide) (by decide) (by decide) (by rfl)
    (by
      intro j hj input2 a2 hi ha
      have hj0 : j = 0 := by omega
      subst hj0
      simp [barMethod] at hi ha
      subst hi ha
      exact ⟨_, rfl⟩)
    (by decide)
  omega

/-- C8, amended: when the value at index `i` is the first that fails to pack, the error of
`ABI.Pack` is the method name between backquotes, a blank, and the error text of `Type.pack`
for that value: it carries the method name and the text of the type capability, and nothing
else. -/
theorem Pack_error_text {Ty V : Type} (cap : TypeCapability Ty V)
    (Sha3 : List Byte → List Byte) (abi : ABI Ty) (name : String) (method : Method Ty)
    (args : List V) (i : Nat) (input : Argument Ty) (a : V) (e : String)
    (hkey : mapLookup abi.Methods name = some method)
    (hlen : args.length = method.Input.length)
    (hin : method.Input[i]? = some input) (ha : args[i]? = some a)
    (hfail : cap.pack input.Typ a = .error e)
    (hmin : ∀ j, j < i → ∀ (input2 : Argument Ty) (a2 : V), method.Input[j]? = some input2 →
      args[j]? = some a2 → ∃ b, cap.pack input2.Typ a2 = .ok b) :
    ∃ err, ABI.Pack cap Sha3 abi name args = .ret (none, some err) ∧
      err = "\x60" ++ name ++ "\x60 " ++ e ∧
      name.data <:+: err.data ∧ e.data <:+ err.data := by
  refine ⟨packErrorText name e, ?_, rfl, ?_, ?_⟩
  · rw [Pack_of_key cap Sha3 abi name method args hkey hlen,
      pack_loop_err cap name method i args 0 none input a e (by simpa using hin) ha hfail
        (fun j hj input2 a2 h1 h2 => hmin j hj input2 a2 (by simpa using h1) h2)]
  · refine ⟨"\x60".data, ("\x60 " ++ e).data, ?_⟩
    simp [packErrorText, String.data_append]
  · refine ⟨("\x60" ++ name ++ "\x60 ").data, ?_⟩
    simp [packErrorText, String.data_append]

/-- The call `bar(0, p, 0)` with `p` a pointer to an `int`: the error names `bar` and repeats
the text of the capability; the index 1 is not in it. -/
theorem Pack_error_text_witness :
    ∃ err, ABI.Pack ptrCap sampleSha3 barABI "bar" [.int 0, .intPtr 5, .int 0]
        = .ret (none, some err) ∧
      err = "\x60" ++ "bar" ++ "\x60 " ++ "type mismatch: *big.Int for *int" ∧
      "bar".data <:+: err.data ∧ "type mismatch: *big.Int for *int".data <:+ err.data :=
  Pack_error_text ptrCap sampleSha3 barABI "bar" barMethod [.int 0, .intPtr 5, .int 0] 1
    { Name := "y", Typ := .uint32 } (.intPtr 5) "type mismatch: *big.Int for *int"
    (by decide) (by decide) (by decide) (by decide) (by rfl)
    (by
      intro j hj input2 a2 h1 h2
      have hj0 : j = 0 := by omega
      subst hj0
      simp [barMethod] at h1 h2
      subst h1 h2
      exact ⟨_, rfl⟩)

/-- C9: with a hash of at least 4 bytes, `ABI.Pack` returns either nil bytes together with
an error, or no error together with the complete payload: the name is a key, the counts
match, every value packs, and the bytes are the method id followed by all the blocks. -/
theorem Pack_all_or_nothing {Ty V : Type} (cap : TypeCapability Ty V)
    (Sha3 : List Byte → List Byte) (abi : ABI Ty) (name : String) (args : List V)
    (hhash : ∀ d, 4 ≤ (Sha3 d).length) :
    (∃ err, ABI.Pack cap Sha3 abi name args = .ret (none, some err)) ∨
    (∃ method id,
      mapLookup abi.Methods name = some method ∧
      args.length = method.Input.length ∧
      (∀ (i : Nat) (input : Argument Ty) (a : V), method.Input[i]? = some input →
        args[i]? = some a → ∃ b, cap.pack input.Typ a = .ok b) ∧
      Method.Id cap Sha3 method = .ret id ∧
      ABI.Pack cap Sha3 abi name args
        = .ret (some (id ++ (packedBlocks cap method.Input args).flatten), none)) := by
  cases hkey : mapLookup abi.Methods name with
  | none =>
    left
    exact ⟨"method \x27" ++ name ++ "\x27 not found", by simp [ABI.Pack, hkey]⟩
  | some method =>
    by_cases hlen : args.length = method.Input.length
    · rcases pack_loop_cases cap name method args 0 none (by omega) with ⟨err, herr⟩ | hall
      · left
        refine ⟨err, ?_⟩
        rw [Pack_of_key cap Sha3 abi name method args hkey hlen, herr]
      · right
        have hpack : ∀ (i : Nat) (input : Argument Ty) (a : V), method.Input[i]? = some input →
            args[i]? = some a → ∃ b, cap.pack input.Typ a = .ok b := by
          intro i input a h1 h2
          exact hall i input a (by simpa using h1) h2
        exact ⟨method, _, rfl, hlen, hpack, id_of_hash cap Sha3 method hhash,
          Pack_of_all_ok cap Sha3 abi name method args hkey hlen hpack hhash⟩
    · left
      exact ⟨"argument count mismatch: " ++ toString args.length ++ " for "
        ++ toString method.Input.length, by simp [ABI.Pack, hkey, hlen]⟩

/-- The call `bar(5, 7, -1)`, whose third value does not pack after two values did: the
result is one of the two shapes, here the first (not a byte is returned). -/
theorem Pack_all_or_nothing_witness :
    ((∃ err, ABI.Pack sampleCap sampleSha3 barABI "bar" [5, 7, -1] = .ret (none, some err)) ∨
    (∃ method id,
      mapLookup barABI.Methods "bar" = some method ∧
      [(5 : Int), 7, -1].length = method.Input.length ∧
      (∀ (i : Nat) (input : Argument SampleType) (a : Int), method.Input[i]? = some input →
        [(5 : Int), 7, -1][i]? = some a → ∃ b, sampleCap.pack input.Typ a = .ok b) ∧
      Method.Id sampleCap sampleSha3 method = .ret id ∧
      ABI.Pack sampleCap sampleSha3 barABI "bar" [5, 7, -1]
        = .ret (some (id ++ (packedBlocks sampleCap method.Input [5, 7, -1]).flatten), none))) ∧
    ABI.Pack sampleCap sampleSha3 barABI "bar" [5, 7, -1]
      = .ret (none, some "\x60bar\x60 abi: bad input given") :=
  ⟨Pack_all_or_nothing sampleCap sampleSha3 barABI "bar" [5, 7, -1]
    (fun d => by rw [sampleSha3_length]; decide), by decide⟩

/-! ### Registry construction -/

/-- The first substring of `strings.SplitN(s, "(", 2)` is the base name of `s`. -/
theorem SplitN_two_head (s : String) : ∃ tl, SplitN s '(' 2 = baseName s :: tl := by
  have h : SplitN s '(' 2 = SplitN.go '(' (0 + 2) s.data := rfl
  rw [h, SplitN.go, List.span_eq_take_drop]
  cases hd : List.dropWhile (fun c => c != '(') s.data with
  | nil => exact ⟨[], by simp [baseName]⟩
  | cons c post => exact ⟨SplitN.go '(' 1 post, by simp [baseName]⟩

/-- The loop of `ABI.UnmarshalJSON` does not panic: it assigns each method under its base
name, in document order. -/
theorem unmarshal_loop_eq {Ty : Type} :
    ∀ (ms : List (Method Ty)) (acc : List (String × Method Ty)),
      ABI.UnmarshalJSON.loop ms acc
        = .ret (ms.foldl (fun l m => mapAssign l (baseName m.Name) m) acc) := by
  intro ms
  induction ms with
  | nil =>
    intro acc
    simp [ABI.UnmarshalJSON.loop]
  | cons m ms ih =>
    intro acc
    obtain ⟨tl, htl⟩ := SplitN_two_head m.Name
    rw [ABI.UnmarshalJSON.loop, htl]
    simp only [List.foldl_cons]
    exact ih _

/-- Reading a key after an assignment: the assigned value under the assigned key, the old
entry under any other key. -/
theorem lookup_mapAssign {β : Type} (l : List (String × β)) (k : String) (v : β)
    (k2 : String) :
    (mapAssign l k v).lookup k2 = if k2 = k then some v else l.lookup k2 := by
  by_cases hk : k2 = k
  · have hb : (k2 == k) = true := by simp [hk]
    rw [mapAssign, List.lookup_cons, hb]
    simp [hk]
  · have hb : (k2 == k) = false := by simp [hk]
    rw [mapAssign, List.lookup_cons, hb]
    simp only [hk, if_false]
    induction l with
    | nil => simp
    | cons p l ih =>
      obtain ⟨k0, v0⟩ := p
      by_cases h0 : k0 = k
      · have hne : (k2 == k0) = false := by simp [h0, hk]
        simp only [List.filter_cons, h0, bne_self_eq_false, Bool.false_eq_true, if_false]
        rw [ih, List.lookup_cons, ← h0, hne]
      · have hf : ((k0, v0).1 != k) = true := by simp [h0]
        rw [List.filter_cons, if_pos hf, List.lookup_cons, List.lookup_cons, ih]

/-- The entry read under a key after the loop of `ABI.UnmarshalJSON`: the last method of the
document with that base name, and the old entry when there is none. -/
theorem lookup_unmarshal_fold {Ty : Type} (k : String) :
    ∀ (ms : List (Method Ty)) (acc : List (String × Method Ty)),
      (ms.foldl (fun l m => mapAssign l (baseName m.Name) m) acc).lookup k
        = (ms.reverse.find? (fun m => baseName m.Name == k)).or (acc.lookup k) := by
  intro ms
  induction ms with
  | nil =>
    intro acc
    simp
  | cons m ms ih =>
    intro acc
    rw [List.foldl_cons, ih, lookup_mapAssign, List.reverse_cons, List.find?_append]
    cases hf : List.find? (fun m => baseName m.Name == k) ms.reverse with
    | some x => simp
    | none =>
      by_cases hk : k = baseName m.Name
      · simp [hk]
      · have hk2 : ¬ baseName m.Name = k := fun h => hk h.symm
        simp [hk, hk2]

/-- C10: for a decoded document, `ABI.UnmarshalJSON` returns (no panic, no error) a registry
with a map whose keys are exactly the base names of the document's methods: a name is a key
if and only if some entry of the document has that base name, and the method stored under a
key is an entry of the document with that key as its base name. -/
theorem UnmarshalJSON_keys {Ty : Type} (methods : List (Method Ty)) (abi : ABI Ty) :
    ∃ l, ABI.UnmarshalJSON (.ok methods) abi = .ret ({ Methods := some l }, none) ∧
      (∀ k, k ∈ ABI.keys { Methods := some l } ↔ ∃ m ∈ methods, baseName m.Name = k) ∧
      (∀ k, (mapLookup (some l) k).isSome ↔ ∃ m ∈ methods, baseName m.Name = k) ∧
      (∀ k m, mapLookup (some l) k = some m → m ∈ methods ∧ baseName m.Name = k) ∧
      (∀ m ∈ methods, ∃ tl, SplitN m.Name '(' 2 = baseName m.Name :: tl) := by
  refine ⟨methods.foldl (fun l m => mapAssign l (baseName m.Name) m) [], ?_, ?_, ?_, ?_, ?_⟩
  · simp [ABI.UnmarshalJSON, unmarshal_loop_eq]
  · intro k
    have h := lookup_eq_none_iff_not_key
      (methods.foldl (fun l m => mapAssign l (baseName m.Name) m) []) k
    rw [lookup_unmarshal_fold] at h
    simp only [ABI.keys]
    rw [← not_iff_not, ← h]
    simp
  · intro k
    simp only [mapLookup]
    rw [lookup_unmarshal_fold]
    simp
  · intro k m hm
    simp only [mapLookup] at hm
    rw [lookup_unmarshal_fold] at hm
    simp only [List.lookup_nil, Option.or_none] at hm
    have h1 := List.mem_of_find?_eq_some hm
    have h2 := List.find?_some hm
    exact ⟨by simpa using h1, by simpa using h2⟩
  · intro m _
    exact SplitN_two_head m.Name

/-- The document with the entries `foo(uint256)` and `bar`: the registry built from it has
the keys `bar` and `foo`, and `foo(uint256)` is not one of them. -/
theorem UnmarshalJSON_keys_witness :
    (∃ l, ABI.UnmarshalJSON (.ok sampleDoc) NullABI = .ret ({ Methods := some l }, none) ∧
      (∀ k, k ∈ ABI.keys { Methods := some l } ↔ ∃ m ∈ sampleDoc, baseName m.Name = k) ∧
      (∀ k, (mapLookup (some l) k).isSome ↔ ∃ m ∈ sampleDoc, baseName m.Name = k) ∧
      (∀ k m, mapLookup (some l) k = some m → m ∈ sampleDoc ∧ baseName m.Name = k) ∧
      (∀ m ∈ sampleDoc, ∃ tl, SplitN m.Name '(' 2 = baseName m.Name :: tl)) ∧
    ABI.UnmarshalJSON (.ok sampleDoc) NullABI
      = .ret ({ Methods := some [("bar", barMethod), ("foo", fooSigMethod)] }, none) :=
  ⟨UnmarshalJSON_keys sampleDoc NullABI, by decide⟩

/-- An assignment keeps the keys of the map distinct. -/
theorem keys_nodup_mapAssign {β : Type} (l : List (String × β)) (k : String) (v : β)
    (h : (l.map Prod.fst).Nodup) : ((mapAssign l k v).map Prod.fst).Nodup := by
  simp only [mapAssign, List.map_cons, List.nodup_cons]
  constructor
  · intro hmem
    obtain ⟨p, hp, hk⟩ := List.mem_map.mp hmem
    have h2 := (List.mem_filter.mp hp).2
    simp [hk] at h2
  · exact h.sublist ((List.filter_sublist l).map Prod.fst)

/-- The loop of `ABI.UnmarshalJSON` keeps the keys of the map distinct. -/
theorem keys_nodup_fold {Ty : Type} :
    ∀ (ms : List (Method Ty)) (acc : List (String × Method Ty)),
      (acc.map Prod.fst).Nodup →
      ((ms.foldl (fun l m => mapAssign l (baseName m.Name) m) acc).map Prod.fst).Nodup := by
  intro ms
  induction ms with
  | nil =>
    intro acc h
    exact h
  | cons m ms ih =>
    intro acc h
    rw [List.foldl_cons]
    exact ih _ (keys_nodup_mapAssign acc (baseName m.Name) m h)

/-- C11: when several entries of a document reduce to one base name, the registry built from
it stores under that base name the last such entry in document order: for a document
`pre ++ m :: post` in which no entry after `m` has the base name of `m`, construction
succeeds, the entry read under that base name is `m` (whatever entries of `pre` share the
base name), and the keys of the map are distinct, so one method per base name is stored. -/
theorem UnmarshalJSON_last_wins {Ty : Type} (pre post : List (Method Ty)) (m : Method Ty)
    (abi : ABI Ty) (hlast : ∀ m2 ∈ post, baseName m2.Name ≠ baseName m.Name) :
    ∃ l, ABI.UnmarshalJSON (.ok (pre ++ m :: post)) abi = .ret ({ Methods := some l }, none) ∧
      mapLookup (some l) (baseName m.Name) = some m ∧
      (ABI.keys { Methods := some l }).Nodup := by
  refine ⟨(pre ++ m :: post).foldl (fun l m => mapAssign l (baseName m.Name) m) [], ?_, ?_, ?_⟩
  · simp [ABI.UnmarshalJSON, unmarshal_loop_eq]
  · simp only [mapLookup]
    rw [lookup_unmarshal_fold, List.reverse_append, List.reverse_cons, List.append_assoc,
      List.find?_append]
    have hnone : List.find? (fun m2 => baseName m2.Name == baseName m.Name) post.reverse
        = none := by
      rw [List.find?_eq_none]
      intro x hx
      simpa using hlast x (List.mem_reverse.mp hx)
    rw [hnone, List.find?_append]
    simp
  · exact keys_nodup_fold _ [] (by simp)

/-- The document with the entries `bar(uint32)`, `bar`, `foo`: both `bar(uint32)` and `bar`
reduce to `bar`, and the entry read under `bar` is the later one. -/
theorem UnmarshalJSON_last_wins_witness :
    (∃ l, ABI.UnmarshalJSON (.ok shadowDoc) NullABI = .ret ({ Methods := some l }, none) ∧
      mapLookup (some l) (baseName barMethod.Name) = some barMethod ∧
      (ABI.keys { Methods := some l }).Nodup) ∧
    baseName barSigMethod.Name = "bar" ∧ baseName barMethod.Name = "bar" ∧
    ABI.UnmarshalJSON (.ok shadowDoc) NullABI
      = .ret ({ Methods := some [("foo", fooMethod), ("bar", barMethod)] }, none) :=
  ⟨UnmarshalJSON_last_wins [barSigMethod] [fooMethod] barMethod NullABI
      (by
        intro m2 h
        rw [List.mem_singleton] at h
        subst h
        decide),
    by decide, by decide, by decide⟩

/-! ### The selector of a packed call -/

/-- A successful `ABI.Pack` resolved the name, matched the counts, and put the leading 4
bytes of the hash of the signature of the resolved method in front. -/
theorem Pack_success_inv {Ty V : Type} (cap : TypeCapability Ty V)
    (Sha3 : List Byte → List Byte) (abi : ABI Ty) (name : String) (args : List V)
    (payload : List Byte)
    (h : ABI.Pack cap Sha3 abi name args = .ret (some payload, none)) :
    ∃ method, mapLookup abi.Methods name = some method ∧
      args.length = method.Input.length ∧
      4 ≤ (Sha3 (stringBytes (Method.String cap method))).length ∧
      payload.take 4 = (Sha3 (stringBytes (Method.String cap method))).take 4 := by
  cases hkey : mapLookup abi.Methods name with
  | none => simp [ABI.Pack, hkey] at h
  | some method =>
    by_cases hlen : args.length = method.Input.length
    · rw [Pack_of_key cap Sha3 abi name method args hkey hlen] at h
      refine ⟨method, rfl, hlen, ?_⟩
      cases hloop : ABI.pack.loop cap name method 0 args none with
      | panic msg => simp [hloop] at h
      | ret r =>
        obtain ⟨arguments, err⟩ := r
        cases err with
        | some e => simp [hloop] at h
        | none =>
          simp only [hloop, Method.Id] at h
          by_cases h4 : 4 ≤ (Sha3 (stringBytes (Method.String cap method))).length
          · simp only [h4, if_true, append, Go.ret.injEq, Prod.mk.injEq, Option.some.injEq,
              and_true] at h
            refine ⟨h4, ?_⟩
            rw [← h, List.take_append_of_le_length (by simp; omega)]
            exact List.take_of_length_le (by simp)
          · simp [h4] at h
    · simp [ABI.Pack, hkey, hlen] at h

/-- A name without `(` is its own base name. -/
theorem baseName_of_no_paren (raw : String) (h : '(' ∉ raw.data) : baseName raw = raw := by
  have ht : raw.data.takeWhile (fun c => c != '(') = raw.data := by
    rw [List.takeWhile_eq_self_iff]
    intro c hc
    have hne : c ≠ '(' := fun heq => h (heq ▸ hc)
    simpa using hne
  simp [baseName, ht]

/-- C12 as stated fails: the registry built from the document with the one method written
`foo(int)` (input `b` of type `int`, canonical type `int256`) packs the call `foo(5)` with a
selector that is the leading 4 bytes of the hash of the raw text `foo(int)`, and not of the
canonical signature `foo(int256)`. -/
theorem selector_canonical_counterexample :
    ∃ reg payload,
      JSON sampleCap fooIntDocument = .ret (reg, none) ∧
      mapLookup reg.Methods "foo" = some fooIntMethod ∧
      ABI.Pack sampleCap sampleSha3 reg "foo" [5] = .ret (some payload, none) ∧
      canonicalSignature sampleCap fooIntMethod = "foo(int256)" ∧
      payload.take 4 ≠ (sampleSha3 (stringBytes "foo(int256)")).take 4 ∧
      payload.take 4 = (sampleSha3 (stringBytes "foo(int)")).take 4 := by
  refine ⟨{ Methods := some [("foo", fooIntMethod)] },
    [224, 231, 238, 245] ++ bigEndian32 5, ?_, ?_, ?_, ?_, ?_, ?_⟩ <;> decide

/-- C12, amended: on a registry built from a document, the first 4 bytes of the payload of a
successful `ABI.Pack` are the leading 4 bytes of the hash of `Method.String` of the resolved
method, an entry of the document with the called name as its base name.  When the raw name
of that entry has no `(`, this signature is the canonical one (base name, `(`, the canonical
type strings of the type capability joined by `,`, `)`); when the raw name has both `(` and
`)`, it is the raw name as the document has it. -/
theorem selector_of_signature {Ty V : Type} (cap : TypeCapability Ty V)
    (Sha3 : List Byte → List Byte) (methods : List (Method Ty)) (abi reg : ABI Ty)
    (name : String) (args : List V) (payload : List Byte)
    (hreg : ABI.UnmarshalJSON (.ok methods) abi = .ret (reg, none))
    (hpack : ABI.Pack cap Sha3 reg name args = .ret (some payload, none)) :
    ∃ method, mapLookup reg.Methods name = some method ∧ method ∈ methods ∧
      baseName method.Name = name ∧
      payload.take 4 = (Sha3 (stringBytes (Method.String cap method))).take 4 ∧
      (payload.take 4).length = 4 ∧
      ('(' ∉ method.Name.data →
        method.Name = name ∧ Method.String cap method = canonicalSignature cap method) ∧
      ('(' ∈ method.Name.data → ')' ∈ method.Name.data →
        Method.String cap method = method.Name) := by
  obtain ⟨method, hkey, _, h4, htake⟩ := Pack_success_inv cap Sha3 reg name args payload hpack
  have hreg2 : reg.Methods
      = some (methods.foldl (fun l m => mapAssign l (baseName m.Name) m) []) := by
    simp only [ABI.UnmarshalJSON, unmarshal_loop_eq, Go.ret.injEq, Prod.mk.injEq,
      and_true] at hreg
    rw [← hreg]
  have hfind : List.find? (fun m => baseName m.Name == name) methods.reverse
      = some method := by
    have hk := hkey
    rw [hreg2] at hk
    simp only [mapLookup] at hk
    rw [lookup_unmarshal_fold] at hk
    simpa using hk
  have hmem : method ∈ methods := by simpa using List.mem_of_find?_eq_some hfind
  have hbase : baseName method.Name = name := by simpa using List.find?_some hfind
  refine ⟨method, hkey, hmem, hbase, htake, ?_, ?_, ?_⟩
  · rw [htake, List.length_take]
    omega
  · intro hno
    have hself := baseName_of_no_paren method.Name hno
    refine ⟨by rw [← hbase, hself], ?_⟩
    have hc : Contains method.Name '(' = false := by simpa [Contains] using hno
    simp [Method.String, canonicalSignature, hc, hself, Join, String.append_assoc]
  · intro h1 h2
    simp [Method.String, Contains, h1, h2]

/-- The registry built from the document with the one entry `foo` and the call `foo(5, 7)`:
the raw name has no `(`, and the selector is that of the canonical signature
`foo(uint32,int256)`. -/
theorem selector_of_signature_witness :
    (∃ method, mapLookup fooABI.Methods "foo" = some method ∧ method ∈ [fooMethod] ∧
      baseName method.Name = "foo" ∧
      ([206, 213, 220, 227] ++ bigEndian32 5 ++ bigEndian32 7).take 4
        = (sampleSha3 (stringBytes (Method.String sampleCap method))).take 4 ∧
      (([206, 213, 220, 227] ++ bigEndian32 5 ++ bigEndian32 7).take 4).length = 4 ∧
      ('(' ∉ method.Name.data →
        method.Name = "foo" ∧
        Method.String sampleCap method = canonicalSignature sampleCap method) ∧
      ('(' ∈ method.Name.data → ')' ∈ method.Name.data →
        Method.String sampleCap method = method.Name)) ∧
    canonicalSignature sampleCap fooMethod = "foo(uint32,int256)" :=
  ⟨selector_of_signature sampleCap sampleSha3 [fooMethod] NullABI fooABI "foo" [5, 7]
      ([206, 213, 220, 227] ++ bigEndian32 5 ++ bigEndian32 7) (by decide) (by decide),
    by decide⟩

/-! ### Decoding of a document -/

/-- C14: for a well-shaped argument descriptor with name `n` and type string `t`,
`Argument.UnmarshalJSON` succeeds if and only if `NewType` accepts `t`; on success the
argument has the name `n` and the type `NewType(t)`; when `NewType` rejects `t`, the parse
fails with the error of `NewType`. -/
theorem Argument_UnmarshalJSON_spec {Ty V : Type} (cap : TypeCapability Ty V) (n t : String)
    (a : Argument Ty) :
    ((∃ a2, Argument.UnmarshalJSON cap (.ok { Name := n, Typ := t }) a = .ok a2) ↔
      ∃ ty, cap.NewType t = .ok ty) ∧
    (∀ ty, cap.NewType t = .ok ty →
      Argument.UnmarshalJSON cap (.ok { Name := n, Typ := t }) a
        = .ok { Name := n, Typ := ty }) ∧
    (∀ e, cap.NewType t = .error e →
      Argument.UnmarshalJSON cap (.ok { Name := n, Typ := t }) a = .error e) := by
  cases h : cap.NewType t with
  | error e =>
    refine ⟨?_, ?_, ?_⟩
    · simp [Argument.UnmarshalJSON, h]
    · intro ty hty
      cases hty
    · intro e2 he
      cases he
      simp [Argument.UnmarshalJSON, h]
  | ok ty =>
    refine ⟨?_, ?_, ?_⟩
    · simp [Argument.UnmarshalJSON, h]
    · intro ty2 hty
      cases hty
      simp [Argument.UnmarshalJSON, h]
    · intro e he
      cases he

/-- The descriptors `b : int` and `y : uint7` under the sample capability: the first parses
to the argument `b` of type `int256`, the second fails with the error of `NewType`. -/
theorem Argument_UnmarshalJSON_spec_witness :
    Argument.UnmarshalJSON sampleCap (.ok { Name := "b", Typ := "int" })
        { Name := "", Typ := .invalid }
      = .ok { Name := "b", Typ := .int256 } ∧
    Argument.UnmarshalJSON sampleCap (.ok { Name := "y", Typ := "uint7" })
        { Name := "", Typ := .invalid }
      = .error "unsupported arg type: uint7" :=
  ⟨(Argument_UnmarshalJSON_spec sampleCap "b" "int" { Name := "", Typ := .invalid }).2.1
      .int256 (by rfl),
    (Argument_UnmarshalJSON_spec sampleCap "y" "uint7" { Name := "", Typ := .invalid }).2.2
      "unsupported arg type: uint7" (by rfl)⟩

/-- C15: the empty document is accepted: `ABI.UnmarshalJSON` and `JSON` return, without
error, the registry whose map is present and has no keys, and on that registry `ABI.Pack`
fails with method-not-found for every name and every value list. -/
theorem empty_document {Ty V : Type} (cap : TypeCapability Ty V)
    (Sha3 : List Byte → List Byte) (abi : ABI Ty) :
    ∃ reg : ABI Ty,
      ABI.UnmarshalJSON (.ok []) abi = .ret (reg, none) ∧
      JSON cap (.ok []) = .ret (reg, none) ∧
      reg.Methods = some [] ∧ reg.keys = [] ∧
      ∀ (name : String) (args : List V),
        ABI.Pack cap Sha3 reg name args
          = .ret (none, some ("method \x27" ++ name ++ "\x27 not found")) := by
  refine ⟨{ Methods := some [] }, ?_, ?_, rfl, rfl, ?_⟩
  · simp [ABI.UnmarshalJSON, ABI.UnmarshalJSON.loop]
  · simp [JSON, jsonUnmarshalMethods, decodeMethods, ABI.UnmarshalJSON,
      ABI.UnmarshalJSON.loop]
  · intro name args
    simp [ABI.Pack, mapLookup]

/-- The decoding of the inputs of one method fails when some descriptor is rejected, and
otherwise gives one argument per descriptor, in order. -/
theorem decodeInputs_cases {Ty V : Type} (cap : TypeCapability Ty V) :
    ∀ ds : List (Except String ExtArg),
      (ds.any (argRejected cap) = true ∧
        ∃ err, decodeInputs cap ds = (.error err : Except String (List (Argument Ty)))) ∨
      (ds.any (argRejected cap) = false ∧
        ∃ l, decodeInputs cap ds = .ok l ∧ List.Forall₂ (argDecoded cap) ds l) := by
  intro ds
  induction ds with
  | nil =>
    right
    exact ⟨by simp, [], by simp [decodeInputs], List.Forall₂.nil⟩
  | cons d ds ih =>
    cases d with
    | error e =>
      left
      exact ⟨by simp [argRejected], _, by simp [decodeInputs, Argument.UnmarshalJSON]; rfl⟩
    | ok extarg =>
      cases hnt : cap.NewType extarg.Typ with
      | error e =>
        left
        exact ⟨by simp [argRejected, hnt], e, by
          simp [decodeInputs, Argument.UnmarshalJSON, hnt]⟩
      | ok t =>
        rcases ih with ⟨hany, err, herr⟩ | ⟨hany, l, hl, hrel⟩
        · left
          exact ⟨by simp [hany], err, by
            simp [decodeInputs, Argument.UnmarshalJSON, hnt, herr]⟩
        · right
          refine ⟨by simp [argRejected, hnt, hany], { Name := extarg.Name, Typ := t } :: l,
            by simp [decodeInputs, Argument.UnmarshalJSON, hnt, hl], ?_⟩
          exact List.Forall₂.cons ⟨extarg.Typ, rfl, hnt⟩ hrel

/-- The decoding of the method descriptors fails when some argument descriptor of some
method is rejected, and otherwise gives one method per descriptor, in order. -/
theorem decodeMethods_cases {Ty V : Type} (cap : TypeCapability Ty V) :
    ∀ ds : List MethodDescriptor,
      (ds.any (fun d => d.inputs.any (argRejected cap)) = true ∧
        ∃ err, decodeMethods cap ds = (.error err : Except String (List (Method Ty)))) ∨
      (ds.any (fun d => d.inputs.any (argRejected cap)) = false ∧
        ∃ l, decodeMethods cap ds = .ok l ∧ List.Forall₂ (methodDecoded cap) ds l) := by
  intro ds
  induction ds with
  | nil =>
    right
    exact ⟨by simp, [], by simp [decodeMethods], List.Forall₂.nil⟩
  | cons d ds ih =>
    rcases decodeInputs_cases cap d.inputs with ⟨hany, err, herr⟩ | ⟨hany, inputs, hin, hrel⟩
    · left
      exact ⟨by simp [hany], err, by simp [decodeMethods, decodeMethod, herr]⟩
    · rcases ih with ⟨hany2, err, herr⟩ | ⟨hany2, l, hl, hrel2⟩
      · left
        exact ⟨by simp [hany2], err, by simp [decodeMethods, decodeMethod, hin, herr]⟩
      · right
        refine ⟨by simp [hany, hany2],
          { Name := d.Name, Const := d.Const, Input := inputs, Return := cap.zero } :: l,
          by simp [decodeMethods, decodeMethod, hin, hl], ?_⟩
        exact List.Forall₂.cons ⟨rfl, rfl, hrel⟩ hrel2

/-- The decoded methods carry the names of the descriptors, in order. -/
theorem names_of_decoded {Ty V : Type} (cap : TypeCapability Ty V)
    (ds : List MethodDescriptor) (l : List (Method Ty))
    (h : List.Forall₂ (methodDecoded cap) ds l) :
    l.map (fun m => m.Name) = ds.map (fun d => d.Name) := by
  induction h with
  | nil => rfl
  | cons hdm _ ih => simp [ih, hdm.1]

/-- The keys after the loop of `ABI.UnmarshalJSON` on an empty map are the base names of the
methods. -/
theorem mem_keys_fold {Ty : Type} (methods : List (Method Ty)) (k : String) :
    k ∈ (methods.foldl (fun l m => mapAssign l (baseName m.Name) m) []).map Prod.fst ↔
      ∃ m ∈ methods, baseName m.Name = k := by
  have h := lookup_eq_none_iff_not_key
    (methods.foldl (fun l m => mapAssign l (baseName m.Name) m) []) k
  rw [lookup_unmarshal_fold] at h
  rw [← not_iff_not, ← h]
  simp

/-- C13: registry construction is all-or-nothing.  When the document is rejected (its shape
is wrong, or some argument descriptor of some method is ill-shaped or has a type string that
`NewType` rejects), `JSON` returns the empty `ABI` value with an error, and
`ABI.UnmarshalJSON` returns that error and leaves its receiver as it was.  Otherwise every
descriptor is decoded into a method, in order, and `JSON` and `ABI.UnmarshalJSON` return
without error a registry whose keys are the base names of all the entries of the document. -/
theorem JSON_all_or_nothing {Ty V : Type} (cap : TypeCapability Ty V) (doc : Document) :
    (documentRejected cap doc = true ∧
      ∃ err, JSON cap doc = .ret ((NullABI : ABI Ty), some err) ∧
        ∀ abi : ABI Ty,
          ABI.UnmarshalJSON (jsonUnmarshalMethods cap doc) abi = .ret (abi, some err)) ∨
    (documentRejected cap doc = false ∧
      ∃ (ds : List MethodDescriptor) (methods : List (Method Ty))
        (l : List (String × Method Ty)),
        doc = .ok ds ∧ jsonUnmarshalMethods cap doc = .ok methods ∧
        List.Forall₂ (methodDecoded cap) ds methods ∧
        JSON cap doc = .ret ({ Methods := some l }, none) ∧
        (∀ abi : ABI Ty,
          ABI.UnmarshalJSON (jsonUnmarshalMethods cap doc) abi
            = .ret ({ Methods := some l }, none)) ∧
        ∀ k, k ∈ l.map Prod.fst ↔ ∃ d ∈ ds, baseName d.Name = k) := by
  cases doc with
  | error e =>
    left
    exact ⟨rfl, e, by simp [JSON, jsonUnmarshalMethods, ABI.UnmarshalJSON, NullABI],
      fun abi => by simp [jsonUnmarshalMethods, ABI.UnmarshalJSON]⟩
  | ok ds =>
    rcases decodeMethods_cases cap ds with ⟨hany, err, herr⟩ | ⟨hany, methods, hm, hrel⟩
    · left
      exact ⟨by simpa [documentRejected] using hany, err,
        by simp [JSON, jsonUnmarshalMethods, herr, ABI.UnmarshalJSON, NullABI],
        fun abi => by simp [jsonUnmarshalMethods, herr, ABI.UnmarshalJSON]⟩
    · right
      refine ⟨by simpa [documentRejected] using hany, ds, methods,
        methods.foldl (fun l m => mapAssign l (baseName m.Name) m) [], rfl,
        by simp [jsonUnmarshalMethods, hm], hrel,
        by simp [JSON, jsonUnmarshalMethods, hm, ABI.UnmarshalJSON, unmarshal_loop_eq],
        fun abi => by simp [jsonUnmarshalMethods, hm, ABI.UnmarshalJSON, unmarshal_loop_eq],
        ?_⟩
      intro k
      rw [mem_keys_fold]
      have hn := names_of_decoded cap ds methods hrel
      constructor
      · rintro ⟨m, hmem, hk⟩
        have h1 : m.Name ∈ methods.map (fun m => m.Name) := List.mem_map.mpr ⟨m, hmem, rfl⟩
        rw [hn] at h1
        obtain ⟨d, hd, hdn⟩ := List.mem_map.mp h1
        exact ⟨d, hd, by rw [hdn]; exact hk⟩
      · rintro ⟨d, hd, hk⟩
        have h1 : d.Name ∈ ds.map (fun d => d.Name) := List.mem_map.mpr ⟨d, hd, rfl⟩
        rw [← hn] at h1
        obtain ⟨m, hmem, hmn⟩ := List.mem_map.mp h1
        exact ⟨m, hmem, by rw [hmn]; exact hk⟩

/-- The document of the specification is accepted and gives the registry with the one key
`foo`; the document with an argument of type `uint7` is rejected, `JSON` returns the empty
`ABI` value and the error of `NewType`, and a receiver that held `foo` still holds it. -/
theorem JSON_all_or_nothing_witness :
    JSON sampleCap fooDocument = .ret (fooABI, none) ∧
    documentRejected sampleCap badTypeDocument = true ∧
    JSON sampleCap badTypeDocument = .ret (NullABI, some "unsupported arg type: uint7") ∧
    ABI.UnmarshalJSON (jsonUnmarshalMethods sampleCap badTypeDocument) fooABI
      = .ret (fooABI, some "unsupported arg type: uint7") ∧
    ((documentRejected sampleCap badTypeDocument = true ∧
      ∃ err, JSON sampleCap badTypeDocument = .ret ((NullABI : ABI SampleType), some err) ∧
        ∀ abi : ABI SampleType,
          ABI.UnmarshalJSON (jsonUnmarshalMethods sampleCap badTypeDocument) abi
            = .ret (abi, some err)) ∨
    (documentRejected sampleCap badTypeDocument = false ∧
      ∃ (ds : List MethodDescriptor) (methods : List (Method SampleType))
        (l : List (String × Method SampleType)),
        badTypeDocument = .ok ds ∧
        jsonUnmarshalMethods sampleCap badTypeDocument = .ok methods ∧
        List.Forall₂ (methodDecoded sampleCap) ds methods ∧
        JSON sampleCap badTypeDocument = .ret ({ Methods := some l }, none) ∧
        (∀ abi : ABI SampleType,
          ABI.UnmarshalJSON (jsonUnmarshalMethods sampleCap badTypeDocument) abi
            = .ret ({ Methods := some l }, none)) ∧
        ∀ k, k ∈ l.map Prod.fst ↔ ∃ d ∈ ds, baseName d.Name = k)) :=
  ⟨by decide, by decide, by decide, by decide, JSON_all_or_nothing sampleCap badTypeDocument⟩

/-! ### Order of the checks, totality, keys -/

/-- C16: `ABI.Pack` checks in a fixed order.  For a name that is not a key the result is the
method-not-found error, whatever the values, their count, and the type capability; for a
name that is a key and a value count that differs from the input count the result is the
count-mismatch error of the two counts, whatever the values and the type capability (also
one that rejects every value): in both cases the result is the same for any two
capabilities, so no answer of `Type.pack` enters it. -/
theorem Pack_check_order {Ty V : Type} (cap cap2 : TypeCapability Ty V)
    (Sha3 : List Byte → List Byte) (abi : ABI Ty) (name : String) (args args2 : List V) :
    (name ∉ abi.keys →
      ABI.Pack cap Sha3 abi name args
        = .ret (none, some ("method \x27" ++ name ++ "\x27 not found")) ∧
      ABI.Pack cap2 Sha3 abi name args2 = ABI.Pack cap Sha3 abi name args) ∧
    (∀ method, mapLookup abi.Methods name = some method →
      args.length ≠ method.Input.length → args2.length = args.length →
      ABI.Pack cap Sha3 abi name args
        = .ret (none, some ("argument count mismatch: " ++ toString args.length ++ " for "
            ++ toString method.Input.length)) ∧
      ABI.Pack cap2 Sha3 abi name args2 = ABI.Pack cap Sha3 abi name args) := by
  constructor
  · intro hkey
    have h := (mapLookup_eq_none_iff abi name).mpr hkey
    simp [ABI.Pack, h]
  · intro method hkey hne hlen2
    have hne2 : args2.length ≠ method.Input.length := by rw [hlen2]; exact hne
    simp [ABI.Pack, hkey, hne, hne2, hlen2]

/-- On the registry that only knows `foo(uint32,int256)`: the name `missing` is not found
with no value at all as with two values under another capability, and the one value `-1`,
which does not pack as a `uint32`, gives the count mismatch and not a packing error. -/
theorem Pack_check_order_witness :
    (ABI.Pack sampleCap sampleSha3 fooABI "missing" []
        = .ret (none, some "method \x27missing\x27 not found") ∧
      ABI.Pack strictCap sampleSha3 fooABI "missing" [7, -1]
        = ABI.Pack sampleCap sampleSha3 fooABI "missing" []) ∧
    (ABI.Pack sampleCap sampleSha3 fooABI "foo" [-1]
        = .ret (none, some "argument count mismatch: 1 for 2") ∧
      ABI.Pack strictCap sampleSha3 fooABI "foo" [7]
        = ABI.Pack sampleCap sampleSha3 fooABI "foo" [-1]) :=
  ⟨(Pack_check_order sampleCap strictCap sampleSha3 fooABI "missing" [] [7, -1]).1
      (by decide),
    (Pack_check_order sampleCap strictCap sampleSha3 fooABI "foo" [-1] [7]).2 fooMethod
      (by decide) (by decide) (by decide)⟩

/-- C17: with a hash of at least 4 bytes (and `Type.pack` a total function), `ABI.Pack`
returns for every registry, name and value list: it never panics.  When `ABI.pack` is
reached through `ABI.Pack` (the name is a key and the counts match), every index of a value
is an index of an input, and `ABI.pack` returns: its out-of-range branch is not taken. -/
theorem Pack_total {Ty V : Type} (cap : TypeCapability Ty V) (Sha3 : List Byte → List Byte)
    (abi : ABI Ty) (name : String) (args : List V) (hhash : ∀ d, 4 ≤ (Sha3 d).length) :
    (∃ r, ABI.Pack cap Sha3 abi name args = .ret r) ∧
    (∀ method, mapLookup abi.Methods name = some method →
      args.length = method.Input.length →
      (∀ i, i < args.length → ∃ input, method.Input[i]? = some input) ∧
      (∃ r, ABI.pack cap abi name args = .ret r) ∧
      ∀ msg, ABI.pack cap abi name args ≠ .panic msg) := by
  have hloop : ∀ method, mapLookup abi.Methods name = some method →
      args.length = method.Input.length →
      ∃ r, ABI.pack.loop cap name method 0 args none = .ret r := by
    intro method _ hlen
    rcases pack_loop_cases cap name method args 0 none (by omega) with ⟨err, herr⟩ | hall
    · exact ⟨_, herr⟩
    · exact ⟨_, pack_loop_ok cap name method args 0 none (by omega) hall⟩
  constructor
  · cases hkey : mapLookup abi.Methods name with
    | none => exact ⟨(none, some ("method \x27" ++ name ++ "\x27 not found")), by
        simp [ABI.Pack, hkey]⟩
    | some method =>
      by_cases hlen : args.length = method.Input.length
      · obtain ⟨r, hr⟩ := hloop method hkey hlen
        rw [Pack_of_key cap Sha3 abi name method args hkey hlen, hr,
          id_of_hash cap Sha3 method hhash]
        obtain ⟨arguments, err⟩ := r
        cases err with
        | some e => exact ⟨(none, some e), rfl⟩
        | none => exact ⟨_, rfl⟩
      · exact ⟨(none, some ("argument count mismatch: " ++ toString args.length ++ " for "
          ++ toString method.Input.length)), by simp [ABI.Pack, hkey, hlen]⟩
  · intro method hkey hlen
    have hpack : ABI.pack cap abi name args = ABI.pack.loop cap name method 0 args none := by
      simp [ABI.pack, mapIndex, hkey]
    obtain ⟨r, hr⟩ := hloop method hkey hlen
    refine ⟨?_, ⟨r, by rw [hpack, hr]⟩, ?_⟩
    · intro i hi
      exact ⟨method.Input[i], List.getElem?_eq_getElem (by omega)⟩
    · intro msg hmsg
      rw [hpack, hr] at hmsg
      cases hmsg

/-- The call `foo(5, -1)` returns under the sample hash; called outside `ABI.Pack`, on a
name that is not a key, `ABI.pack` does take its out-of-range branch. -/
theorem Pack_total_witness :
    ((∃ r, ABI.Pack sampleCap sampleSha3 fooABI "foo" [5, -1] = .ret r) ∧
    (∀ method, mapLookup fooABI.Methods "foo" = some method →
      [(5 : Int), -1].length = method.Input.length →
      (∀ i, i < [(5 : Int), -1].length → ∃ input, method.Input[i]? = some input) ∧
      (∃ r, ABI.pack sampleCap fooABI "foo" [5, -1] = .ret r) ∧
      ∀ msg, ABI.pack sampleCap fooABI "foo" [5, -1] ≠ .panic msg)) ∧
    ABI.pack sampleCap fooABI "missing" [5] = .panic "index out of range" :=
  ⟨Pack_total sampleCap sampleSha3 fooABI "foo" [5, -1]
      (fun d => by rw [sampleSha3_length]; decide),
    by decide⟩

/-- A base name has no `(`. -/
theorem baseName_no_paren (raw : String) : '(' ∉ (baseName raw).data := by
  intro h
  have h2 := List.mem_takeWhile_imp (show '(' ∈ raw.data.takeWhile (fun c => c != '(') from h)
  simp at h2

/-- C18: no key of a registry built by `ABI.UnmarshalJSON` contains `(`; so `ABI.Pack` with
a name that contains `(` fails with method-not-found on it, whatever the values; and an
entry read under a key is an entry of the document, unchanged (it keeps its raw name), whose
base name is that key. -/
theorem keys_without_paren {Ty V : Type} (cap : TypeCapability Ty V)
    (Sha3 : List Byte → List Byte) (methods : List (Method Ty)) (abi reg : ABI Ty)
    (hreg : ABI.UnmarshalJSON (.ok methods) abi = .ret (reg, none)) :
    (∀ k ∈ reg.keys, '(' ∉ k.data) ∧
    (∀ (name : String) (args : List V), '(' ∈ name.data →
      ABI.Pack cap Sha3 reg name args
        = .ret (none, some ("method \x27" ++ name ++ "\x27 not found"))) ∧
    (∀ k m, mapLookup reg.Methods k = some m → m ∈ methods ∧ k = baseName m.Name) := by
  have hreg2 : reg.Methods
      = some (methods.foldl (fun l m => mapAssign l (baseName m.Name) m) []) := by
    simp only [ABI.UnmarshalJSON, unmarshal_loop_eq, Go.ret.injEq, Prod.mk.injEq,
      and_true] at hreg
    rw [← hreg]
  have hkeys : ∀ k ∈ reg.keys, '(' ∉ k.data := by
    intro k hk
    simp only [ABI.keys, hreg2] at hk
    obtain ⟨m, _, hm⟩ := (mem_keys_fold methods k).mp hk
    rw [← hm]
    exact baseName_no_paren m.Name
  refine ⟨hkeys, ?_, ?_⟩
  · intro name args hname
    have hnot : name ∉ reg.keys := fun hk => hkeys name hk hname
    have h := (mapLookup_eq_none_iff reg name).mpr hnot
    simp [ABI.Pack, h]
  · intro k m hk
    rw [hreg2] at hk
    simp only [mapLookup] at hk
    rw [lookup_unmarshal_fold] at hk
    simp only [List.lookup_nil, Option.or_none] at hk
    have h1 := List.mem_of_find?_eq_some hk
    have h2 := List.find?_some hk
    have h3 : baseName m.Name = k := by simpa using h2
    exact ⟨by simpa using h1, h3.symm⟩

/-- The registry built from the one entry `foo(uint256)`: the call under the full signature
`foo(uint256)` is not found, the entry is read under `foo`, and its signature is still the
raw name `foo(uint256)`. -/
theorem keys_without_paren_witness :
    ABI.Pack sampleCap sampleSha3 { Methods := some [("foo", fooSigMethod)] } "foo(uint256)" [5]
      = .ret (none, some "method \x27foo(uint256)\x27 not found") ∧
    mapLookup (some [("foo", fooSigMethod)]) "foo" = some fooSigMethod ∧
    Method.String sampleCap fooSigMethod = "foo(uint256)" ∧
    ABI.Pack sampleCap sampleSha3 { Methods := some [("foo", fooSigMethod)] } "foo" [5]
      = .ret (some ((sampleSha3 (stringBytes "foo(uint256)")).take 4 ++ bigEndian32 5), none) :=
  ⟨(keys_without_paren sampleCap sampleSha3 [fooSigMethod] NullABI
      { Methods := some [("foo", fooSigMethod)] } (by decide)).2.1 "foo(uint256)" [5]
      (by decide),
    by decide, by decide, by decide⟩

end Abi
